import Mathlib

/-!
Verification of the similarity-computation core of the paper-check program
(`main.py`, with the naive reference implementation in `mainTEST.py`).

The embedding works on `List Char` (Python `str` as a sequence of code
points).  The regex class `\s` is modelled completely (the exact set of
code points Python's `\s` matches on `str` patterns).  The regex class
`\w` (all Unicode word characters) and `str.lower()` (full Unicode case
mapping) are modelled on a declared fragment that contains every
behaviour class the program exhibits: the ASCII word characters and
underscore, the CJK unified ideographs of the program's input domain,
and `U+0130` (`'İ'`), the character whose lower-casing expands to the
two code points `"i" + U+0307` — with `U+0307` (combining dot above)
correctly not a word character, as in Python.  Lower-casing is therefore
string-valued (`lowerString`), not character-valued.  `Counter` objects
are modelled as association lists in insertion order, built by repeated
increment exactly as the source builds them.  Python floats are modelled
by exact real numbers; fallible functions return `Except`.
-/

namespace PaperCheck

/-- An n-gram: a contiguous run of characters. -/
abbrev Gram := List Char

/-- The regex class `\s`: exactly the code points Python's `\s` matches
on `str` patterns (the `str.isspace` characters). -/
def isSpaceChar (c : Char) : Bool :=
  c == ' ' || c == '\t' || c == '\n' || c == '\x0b' || c == '\x0c' || c == '\r'
    || decide (28 ≤ c.toNat ∧ c.toNat ≤ 31) || c == '\x85' || c == '\xa0'
    || c == '\u1680' || decide (0x2000 ≤ c.toNat ∧ c.toNat ≤ 0x200a)
    || c == '\u2028' || c == '\u2029' || c == '\u202f' || c == '\u205f'
    || c == '\u3000'

/-- Fragment of the regex class `\w` (Unicode word characters): ASCII
letters, digits, underscore, `'İ'` (U+0130, the letter whose Python
lower-casing expands to two code points), and the CJK unified ideographs
block (the program's input domain).  `U+0307` (combining dot above) is
not a word character, as in Python. -/
def isWordChar (c : Char) : Bool :=
  decide (65 ≤ c.toNat ∧ c.toNat ≤ 90) || decide (97 ≤ c.toNat ∧ c.toNat ≤ 122)
    || decide (48 ≤ c.toNat ∧ c.toNat ≤ 57) || c == '_' || c == 'İ'
    || decide (0x4e00 ≤ c.toNat ∧ c.toNat ≤ 0x9fff)

/-- Python `str.lower()` on one character: `'İ'` (U+0130) lower-cases to
the two code points `"i" + U+0307` (the only unconditional
multi-character lowercase mapping in Unicode); `A`-`Z` shift to `a`-`z`;
every other character of the modelled fragment is unchanged. -/
def lowerCharFull (c : Char) : List Char :=
  if c = 'İ' then ['i', '\u0307']
  else if 65 ≤ c.toNat ∧ c.toNat ≤ 90 then [Char.ofNat (c.toNat + 32)] else [c]

/-- `str.lower()` on a whole string: concatenation of the per-character
lower-case images (the result can be longer than the input). -/
def lowerString (text : List Char) : List Char :=
  text.flatMap lowerCharFull

/-- `re.sub(r'[^\w\s]', '', text)`: keep exactly the word characters and
whitespace. -/
def removeNonWord (text : List Char) : List Char :=
  text.filter (fun c => isWordChar c || isSpaceChar c)

/-- Worker for `collapseSpaces`; the flag records whether the previous
character belonged to a whitespace run whose single `' '` has already
been emitted. -/
def collapseAux : Bool → List Char → List Char
  | _, [] => []
  | prevSpace, c :: cs =>
    if isSpaceChar c then
      if prevSpace then collapseAux true cs
      else ' ' :: collapseAux true cs
    else c :: collapseAux false cs

/-- `re.sub(r'\s+', ' ', text)`: replace every maximal whitespace run by a
single ASCII space. -/
def collapseSpaces (text : List Char) : List Char :=
  collapseAux false text

/-- `str.strip()`: drop whitespace from both ends. -/
def pyStrip (text : List Char) : List Char :=
  ((text.dropWhile isSpaceChar).reverse.dropWhile isSpaceChar).reverse

/-- `preprocess_text` from `main.py` (and identically `mainTEST.py`):
remove non-word non-space characters, lower-case, collapse whitespace,
strip.  The `isinstance` check is enforced by the type. -/
def preprocess_text (text : List Char) : List Char :=
  pyStrip (collapseSpaces (lowerString (removeNonWord text)))

/-- The list of n-grams of `text`, one per starting offset `i` in
`range(len(text) - n + 1)` (empty when `len(text) + 1 ≤ n`, as Python's
`range` of a non-positive bound is empty). -/
def ngramList (text : List Char) (n : Nat) : List Gram :=
  (List.range (text.length + 1 - n)).map (fun i => (text.drop i).take n)

/-- One `freq[gram] += 1` step on a `Counter` modelled as an association
list in insertion order. -/
def bumpKey : List (Gram × Nat) → Gram → List (Gram × Nat)
  | [], g => [(g, 1)]
  | (k, v) :: rest, g =>
    if k = g then (k, v + 1) :: rest else (k, v) :: bumpKey rest g

/-- The `Counter` built by the loop `for i in range(...): freq[...] += 1`. -/
def buildFreq (grams : List Gram) : List (Gram × Nat) :=
  grams.foldl bumpKey []

/-- `get_ngram_frequency` from `main.py`: validate `n`, return the empty
counter when the text is shorter than `n`, otherwise count the n-grams.
The `isinstance(text, str)` check is enforced by the type; `n` ranges
over `Nat`, so `n < 1` means `n = 0`. -/
def get_ngram_frequency (text : List Char) (n : Nat) : Except String (List (Gram × Nat)) :=
  if n < 1 then Except.error "n must be a positive integer"
  else if text.length < n then Except.ok []
  else Except.ok (buildFreq (ngramList text n))

/-- `Counter` lookup: the stored count, or `0` for a missing key. -/
def freqOf (m : List (Gram × Nat)) (g : Gram) : Nat :=
  match m.lookup g with
  | some v => v
  | none => 0

/-- The key list of a frequency map. -/
def keysOf (m : List (Gram × Nat)) : List Gram :=
  m.map Prod.fst

/-- `set(freq1.keys()) & set(freq2.keys())` as a duplicate-free list. -/
def commonGrams (f1 f2 : List (Gram × Nat)) : List Gram :=
  (keysOf f1).filter (fun g => decide (g ∈ keysOf f2))

/-- The optimized dot product of `main.py`: sum of products over the
common n-grams only. -/
def dotProduct (f1 f2 : List (Gram × Nat)) : Nat :=
  ((commonGrams f1 f2).map (fun g => freqOf f1 g * freqOf f2 g)).sum

/-- `sum(freq ** 2 for freq in freq.values())`. -/
def sumSqValues (m : List (Gram × Nat)) : Nat :=
  (m.map (fun p => p.2 * p.2)).sum

/-- `math.sqrt(sum(freq ** 2 for freq in freq.values()))`. -/
noncomputable def magnitude (m : List (Gram × Nat)) : ℝ :=
  Real.sqrt (sumSqValues m)

/-- `calculate_cosine_similarity` from `main.py`: preprocess, the two
empty-checks, intersection dot product, magnitudes, the division guard,
and the final clamp to `[0, 1]`.  An invalid `n` surfaces as the wrapped
`PaperCheckException` of the enclosing `try`. -/
noncomputable def calculate_cosine_similarity (text1 text2 : List Char) (n : Nat) :
    Except String ℝ :=
  if preprocess_text text1 = [] ∨ preprocess_text text2 = [] then Except.ok 0
  else
    match get_ngram_frequency (preprocess_text text1) n,
        get_ngram_frequency (preprocess_text text2) n with
    | Except.ok f1, Except.ok f2 =>
      if f1 = [] ∨ f2 = [] then Except.ok 0
      else if magnitude f1 * magnitude f2 = 0 then Except.ok 0
      else Except.ok (max 0 (min 1 ((dotProduct f1 f2 : ℝ) / (magnitude f1 * magnitude f2))))
    | _, _ => Except.error "cosine similarity computation failed"

/-- `get_ngrams` from `mainTEST.py`: the plain n-gram list (no
validation, no length guard). -/
def get_ngrams (text : List Char) (n : Nat) : List Gram :=
  ngramList text n

/-- The naive dot product of `mainTEST.py`: sum of products over the
union `set(freq1.keys()) | set(freq2.keys())` of the key sets, missing
keys counting as `0` (`defaultdict(int)`). -/
def unionDot (f1 f2 : List (Gram × Nat)) : Nat :=
  (((keysOf f1 ++ keysOf f2).dedup).map (fun g => freqOf f1 g * freqOf f2 g)).sum

/-- `calculate_cosine_similarity` from `mainTEST.py`: no empty-text or
empty-counter shortcuts, dot product over the key-set union, no clamp;
only the zero-magnitude guard. -/
noncomputable def calculate_cosine_similarity_naive (text1 text2 : List Char) (n : Nat) : ℝ :=
  if magnitude (buildFreq (get_ngrams (preprocess_text text1) n)) *
      magnitude (buildFreq (get_ngrams (preprocess_text text2) n)) = 0 then 0
  else
    (unionDot (buildFreq (get_ngrams (preprocess_text text1) n))
        (buildFreq (get_ngrams (preprocess_text text2) n)) : ℝ) /
      (magnitude (buildFreq (get_ngrams (preprocess_text text1) n)) *
        magnitude (buildFreq (get_ngrams (preprocess_text text2) n)))

/-- `write_result` from `main.py`.  `pathOk` abstracts the outcome of
`validate_file_path(output_path, is_output=True)` (a filesystem check).
`Except.ok r` models: every validation passed, and only then is the
output file opened and the rendering of `round(r, 2)` written to it;
`Except.error` models a `PaperCheckException` raised before the file is
opened, so the file is neither created nor modified.  The
`isinstance(result, (int, float))` check is enforced by the type. -/
noncomputable def write_result (pathOk : Bool) (result : ℝ) : Except String ℝ :=
  if !pathOk then Except.error "invalid output path"
  else if result < 0 ∨ 1 < result then Except.error "result must be between 0 and 1"
  else Except.ok result

/-- The range predicate for scorer results: every successfully computed
similarity lies in `[0, 1]`. -/
def resultIn01 : Except String ℝ → Prop
  | Except.ok r => 0 ≤ r ∧ r ≤ 1
  | Except.error _ => True

/-! ### Counter lemmas -/

theorem keysOf_nil : keysOf [] = [] := rfl

theorem keysOf_cons (k : Gram) (v : Nat) (rest : List (Gram × Nat)) :
    keysOf ((k, v) :: rest) = k :: keysOf rest := rfl

theorem bumpKey_ne_nil (m : List (Gram × Nat)) (g : Gram) : bumpKey m g ≠ [] := by
  cases m with
  | nil => simp [bumpKey]
  | cons p rest =>
    obtain ⟨k, v⟩ := p
    by_cases h : k = g <;> simp [bumpKey, h]

theorem keysOf_bumpKey (m : List (Gram × Nat)) (g : Gram) :
    keysOf (bumpKey m g) = if g ∈ keysOf m then keysOf m else keysOf m ++ [g] := by
  induction m with
  | nil => simp [bumpKey, keysOf]
  | cons p rest ih =>
    obtain ⟨k, v⟩ := p
    by_cases hkg : k = g
    · subst hkg
      simp [bumpKey, keysOf_cons]
    · have hmem : g ∈ keysOf ((k, v) :: rest) ↔ g ∈ keysOf rest := by
        rw [keysOf_cons, List.mem_cons]
        constructor
        · rintro (rfl | h)
          · exact absurd rfl hkg
          · exact h
        · exact Or.inr
      rw [bumpKey, if_neg hkg, keysOf_cons, ih]
      by_cases hg : g ∈ keysOf rest
      · rw [if_pos hg, if_pos (hmem.mpr hg), keysOf_cons]
      · rw [if_neg hg, if_neg (fun h => hg (hmem.mp h)), keysOf_cons, List.cons_append]

theorem mem_keysOf_bumpKey (m : List (Gram × Nat)) (a g : Gram) :
    g ∈ keysOf (bumpKey m a) ↔ g ∈ keysOf m ∨ g = a := by
  rw [keysOf_bumpKey]
  by_cases h : a ∈ keysOf m
  · rw [if_pos h]
    constructor
    · exact Or.inl
    · rintro (hg | rfl)
      · exact hg
      · exact h
  · rw [if_neg h]
    simp

theorem mem_keysOf_foldl (l : List Gram) (acc : List (Gram × Nat)) (g : Gram) :
    g ∈ keysOf (l.foldl bumpKey acc) ↔ g ∈ keysOf acc ∨ g ∈ l := by
  induction l generalizing acc with
  | nil => simp
  | cons a l ih =>
    rw [List.foldl_cons, ih, mem_keysOf_bumpKey]
    simp only [List.mem_cons]
    tauto

theorem mem_keysOf_buildFreq (l : List Gram) (g : Gram) :
    g ∈ keysOf (buildFreq l) ↔ g ∈ l := by
  rw [buildFreq, mem_keysOf_foldl]
  simp [keysOf_nil]

theorem nodup_keysOf_foldl (l : List Gram) (acc : List (Gram × Nat))
    (h : (keysOf acc).Nodup) : (keysOf (l.foldl bumpKey acc)).Nodup := by
  induction l generalizing acc with
  | nil => exact h
  | cons a l ih =>
    rw [List.foldl_cons]
    apply ih
    rw [keysOf_bumpKey]
    by_cases ha : a ∈ keysOf acc
    · rwa [if_pos ha]
    · rw [if_neg ha]
      exact h.append (List.nodup_singleton a) (by simpa using ha)

theorem nodup_keysOf_buildFreq (l : List Gram) : (keysOf (buildFreq l)).Nodup :=
  nodup_keysOf_foldl l [] (by simp [keysOf_nil])

theorem freqOf_nil (g : Gram) : freqOf [] g = 0 := rfl

theorem freqOf_cons (k : Gram) (v : Nat) (rest : List (Gram × Nat)) (g : Gram) :
    freqOf ((k, v) :: rest) g = if g = k then v else freqOf rest g := by
  by_cases h : g = k
  · subst h
    simp [freqOf, List.lookup]
  · have hb : (g == k) = false := beq_eq_false_iff_ne.mpr h
    simp [freqOf, List.lookup, hb, h]

theorem freqOf_bumpKey (m : List (Gram × Nat)) (a g : Gram) :
    freqOf (bumpKey m a) g = freqOf m g + (if g = a then 1 else 0) := by
  induction m with
  | nil =>
    by_cases h : g = a <;> simp [bumpKey, freqOf_cons, freqOf_nil, h]
  | cons p rest ih =>
    obtain ⟨k, v⟩ := p
    by_cases hka : k = a
    · subst hka
      by_cases hg : g = k <;> simp [bumpKey, freqOf_cons, hg]
    · rw [bumpKey, if_neg hka]
      by_cases hg : g = k
      · subst hg
        have hga : ¬ g = a := fun h => hka (h ▸ rfl)
        simp [freqOf_cons, hga]
      · simp [freqOf_cons, hg, ih]

theorem freqOf_foldl (l : List Gram) (acc : List (Gram × Nat)) (g : Gram) :
    freqOf (l.foldl bumpKey acc) g = freqOf acc g + l.count g := by
  induction l generalizing acc with
  | nil => simp
  | cons a l ih =>
    rw [List.foldl_cons, ih, freqOf_bumpKey, List.count_cons]
    by_cases h : g = a
    · rw [if_pos h, if_pos (beq_iff_eq.mpr h.symm)]
      omega
    · rw [if_neg h, if_neg (fun hb => h (beq_iff_eq.mp hb).symm)]
      omega

theorem freqOf_buildFreq (l : List Gram) (g : Gram) :
    freqOf (buildFreq l) g = l.count g := by
  simpa [freqOf_nil] using freqOf_foldl l [] g

theorem freqOf_eq_of_mem (m : List (Gram × Nat)) (hnd : (keysOf m).Nodup)
    (k : Gram) (v : Nat) (hmem : (k, v) ∈ m) : freqOf m k = v := by
  induction m with
  | nil => cases hmem
  | cons p rest ih =>
    obtain ⟨k', v'⟩ := p
    rw [keysOf_cons] at hnd
    rcases List.mem_cons.mp hmem with h | h
    · cases h
      simp [freqOf_cons]
    · have hk : k ≠ k' := by
        rintro rfl
        exact (List.nodup_cons.mp hnd).1 (List.mem_map_of_mem Prod.fst h)
      rw [freqOf_cons, if_neg hk]
      exact ih (List.nodup_cons.mp hnd).2 h

theorem freqOf_eq_zero_of_not_mem (m : List (Gram × Nat)) (g : Gram)
    (h : g ∉ keysOf m) : freqOf m g = 0 := by
  induction m with
  | nil => rfl
  | cons p rest ih =>
    obtain ⟨k, v⟩ := p
    rw [keysOf_cons] at h
    rw [freqOf_cons, if_neg (fun hgk => h (by rw [hgk]; exact List.mem_cons_self k _))]
    exact ih (fun hg => h (List.mem_cons_of_mem k hg))

theorem bumpKey_values_pos (m : List (Gram × Nat)) (g : Gram)
    (h : ∀ p ∈ m, 1 ≤ p.2) : ∀ p ∈ bumpKey m g, 1 ≤ p.2 := by
  induction m with
  | nil =>
    intro p hp
    simp [bumpKey] at hp
    simp [hp]
  | cons q rest ih =>
    obtain ⟨k, v⟩ := q
    by_cases hkg : k = g
    · intro p hp
      rw [bumpKey, if_pos hkg] at hp
      rcases List.mem_cons.mp hp with rfl | hp
      · simp
      · exact h p (List.mem_cons_of_mem _ hp)
    · intro p hp
      rw [bumpKey, if_neg hkg] at hp
      rcases List.mem_cons.mp hp with rfl | hp
      · exact h (k, v) (List.mem_cons_self _ _)
      · exact ih (fun q hq => h q (List.mem_cons_of_mem _ hq)) p hp

theorem foldl_values_pos (l : List Gram) (acc : List (Gram × Nat))
    (h : ∀ p ∈ acc, 1 ≤ p.2) : ∀ p ∈ l.foldl bumpKey acc, 1 ≤ p.2 := by
  induction l generalizing acc with
  | nil => exact h
  | cons a l ih =>
    rw [List.foldl_cons]
    exact ih _ (bumpKey_values_pos acc a h)

theorem buildFreq_values_pos (l : List Gram) : ∀ p ∈ buildFreq l, 1 ≤ p.2 :=
  foldl_values_pos l [] (by simp)

theorem sumSqValues_cons (p : Gram × Nat) (rest : List (Gram × Nat)) :
    sumSqValues (p :: rest) = p.2 * p.2 + sumSqValues rest := by
  simp [sumSqValues]

theorem sumSqValues_pos (f : List (Gram × Nat)) (hpos : ∀ p ∈ f, 1 ≤ p.2)
    (hne : f ≠ []) : 1 ≤ sumSqValues f := by
  cases f with
  | nil => exact absurd rfl hne
  | cons p rest =>
    have hp : 1 ≤ p.2 := hpos p (List.mem_cons_self _ _)
    have : 1 ≤ p.2 * p.2 := Nat.one_le_iff_ne_zero.mpr (by positivity)
    rw [sumSqValues_cons]
    omega

/-! ### Character lemmas -/

theorem toNat_ofNat_valid (n : Nat) (h : n.isValidChar) : (Char.ofNat n).toNat = n := by
  unfold Char.ofNat
  rw [dif_pos h]
  rfl

theorem isSpaceChar_toNat (c : Char) (h : isSpaceChar c = true) :
    c.toNat = 32 ∨ (9 ≤ c.toNat ∧ c.toNat ≤ 13) ∨ (28 ≤ c.toNat ∧ c.toNat ≤ 31)
      ∨ c.toNat = 133 ∨ c.toNat = 160 ∨ c.toNat = 5760
      ∨ (8192 ≤ c.toNat ∧ c.toNat ≤ 8202) ∨ c.toNat = 8232 ∨ c.toNat = 8233
      ∨ c.toNat = 8239 ∨ c.toNat = 8287 ∨ c.toNat = 12288 := by
  simp only [isSpaceChar, Bool.or_eq_true, beq_iff_eq, decide_eq_true_eq, or_assoc] at h
  rcases h with h|h|h|h|h|h|h|h|h|h|h|h|h|h|h|h <;> first | omega | (subst h; decide)

theorem isWordChar_toNat (c : Char) (h : isWordChar c = true) :
    (65 ≤ c.toNat ∧ c.toNat ≤ 90) ∨ (97 ≤ c.toNat ∧ c.toNat ≤ 122)
      ∨ (48 ≤ c.toNat ∧ c.toNat ≤ 57) ∨ c.toNat = 95 ∨ c.toNat = 304
      ∨ (0x4e00 ≤ c.toNat ∧ c.toNat ≤ 0x9fff) := by
  simp only [isWordChar, Bool.or_eq_true, beq_iff_eq, decide_eq_true_eq, or_assoc] at h
  rcases h with h|h|h|h|h|h <;> first | omega | (subst h; decide)

theorem not_word_of_space (c : Char) (h : isSpaceChar c = true) : isWordChar c = false := by
  by_cases hw : isWordChar c
  · exfalso
    have hwt := isWordChar_toNat c hw
    have hst := isSpaceChar_toNat c h
    omega
  · simpa using hw

theorem lowerCharFull_of_upper (c : Char) (h : 65 ≤ c.toNat ∧ c.toNat ≤ 90) :
    lowerCharFull c = [Char.ofNat (c.toNat + 32)] := by
  have hne : c ≠ 'İ' := by
    intro he
    rw [he] at h
    exact absurd h (by decide)
  rw [lowerCharFull, if_neg hne, if_pos h]

theorem lowerCharFull_of_other (c : Char) (hne : c ≠ 'İ')
    (h : ¬(65 ≤ c.toNat ∧ c.toNat ≤ 90)) : lowerCharFull c = [c] := by
  rw [lowerCharFull, if_neg hne, if_neg h]

theorem mem_lowerCharFull_cases (d c : Char) (h : c ∈ lowerCharFull d) :
    (d = 'İ' ∧ (c = 'i' ∨ c = '\u0307'))
      ∨ (65 ≤ d.toNat ∧ d.toNat ≤ 90 ∧ c.toNat = d.toNat + 32)
      ∨ (d ≠ 'İ' ∧ ¬(65 ≤ d.toNat ∧ d.toNat ≤ 90) ∧ c = d) := by
  by_cases hi : d = 'İ'
  · subst hi
    refine Or.inl ⟨rfl, ?_⟩
    simpa [lowerCharFull] using h
  · by_cases hu : 65 ≤ d.toNat ∧ d.toNat ≤ 90
    · refine Or.inr (Or.inl ⟨hu.1, hu.2, ?_⟩)
      rw [lowerCharFull_of_upper d hu] at h
      have hc : c = Char.ofNat (d.toNat + 32) := by simpa using h
      rw [hc]
      exact toNat_ofNat_valid _ (Or.inl (by omega))
    · refine Or.inr (Or.inr ⟨hi, hu, ?_⟩)
      rw [lowerCharFull_of_other d hi hu] at h
      simpa using h

theorem lowerCharFull_fixed_of_mem (d c : Char) (h : c ∈ lowerCharFull d) :
    lowerCharFull c = [c] := by
  rcases mem_lowerCharFull_cases d c h with ⟨_, hc | hc⟩ | ⟨h65, h90, hc⟩ | ⟨hne, hu, hc⟩
  · subst hc
    decide
  · subst hc
    decide
  · apply lowerCharFull_of_other
    · intro he
      rw [he] at hc
      have h304 : ('İ').toNat = 304 := rfl
      omega
    · omega
  · subst hc
    exact lowerCharFull_of_other c hne hu

theorem iota_not_mem_lowerCharFull (d : Char) : 'İ' ∉ lowerCharFull d := by
  intro h
  rcases mem_lowerCharFull_cases d _ h with ⟨_, hc | hc⟩ | ⟨h65, h90, hc⟩ | ⟨hdne, _, hc⟩
  · exact absurd hc (by decide)
  · exact absurd hc (by decide)
  · have h304 : ('İ').toNat = 304 := rfl
    omega
  · exact hdne hc.symm

theorem isWordChar_of_mem_lowerCharFull (d c : Char) (hw : isWordChar d = true)
    (hdne : d ≠ 'İ') (h : c ∈ lowerCharFull d) : isWordChar c = true := by
  rcases mem_lowerCharFull_cases d c h with ⟨hd, _⟩ | ⟨h65, h90, hc⟩ | ⟨_, _, hc⟩
  · exact absurd hd hdne
  · simp only [isWordChar, Bool.or_eq_true, decide_eq_true_eq]
    left
    left
    left
    left
    right
    omega
  · rw [hc]
    exact hw

theorem lowerCharFull_of_space (c : Char) (h : isSpaceChar c = true) :
    lowerCharFull c = [c] := by
  have ht := isSpaceChar_toNat c h
  apply lowerCharFull_of_other
  · intro he
    subst he
    revert ht
    decide
  · omega

theorem word_or_space_of_kept (c : Char) (h : (isWordChar c || isSpaceChar c) = true) :
    isWordChar c = true ∨ isSpaceChar c = true := by
  rcases Bool.or_eq_true .. |>.mp h with h | h
  · exact Or.inl h
  · exact Or.inr h

/-! ### Whitespace-collapsing lemmas -/

theorem collapseAux_nil (b : Bool) : collapseAux b [] = [] := rfl

theorem collapseAux_cons_space (b : Bool) (c : Char) (cs : List Char)
    (h : isSpaceChar c = true) :
    collapseAux b (c :: cs) =
      if b then collapseAux true cs else ' ' :: collapseAux true cs := by
  cases b <;> simp [collapseAux, h]

theorem collapseAux_cons_nonspace (b : Bool) (c : Char) (cs : List Char)
    (h : isSpaceChar c = false) :
    collapseAux b (c :: cs) = c :: collapseAux false cs := by
  cases b <;> simp [collapseAux, h]

theorem mem_collapseAux (l : List Char) :
    ∀ (b : Bool) (x : Char), x ∈ collapseAux b l →
      x = ' ' ∨ (x ∈ l ∧ isSpaceChar x = false) := by
  induction l with
  | nil => intro b x hx; simp [collapseAux_nil] at hx
  | cons c cs ih =>
    intro b x hx
    by_cases hc : isSpaceChar c
    · rw [collapseAux_cons_space b c cs hc] at hx
      cases b with
      | false =>
        rcases List.mem_cons.mp (by simpa using hx) with rfl | hx'
        · exact Or.inl rfl
        · rcases ih true x hx' with h | ⟨hmem, hns⟩
          · exact Or.inl h
          · exact Or.inr ⟨List.mem_cons_of_mem c hmem, hns⟩
      | true =>
        rcases ih true x (by simpa using hx) with h | ⟨hmem, hns⟩
        · exact Or.inl h
        · exact Or.inr ⟨List.mem_cons_of_mem c hmem, hns⟩
    · rw [collapseAux_cons_nonspace b c cs (by simpa using hc)] at hx
      rcases List.mem_cons.mp hx with hxc | hx'
      · subst hxc
        exact Or.inr ⟨List.mem_cons_self x cs, by simpa using hc⟩
      · rcases ih false x hx' with h | ⟨hmem, hns⟩
        · exact Or.inl h
        · exact Or.inr ⟨List.mem_cons_of_mem c hmem, hns⟩

theorem collapseAux_true_head (l : List Char) :
    ∀ x : Char, (collapseAux true l).head? = some x → isSpaceChar x = false := by
  induction l with
  | nil => intro x hx; simp [collapseAux_nil] at hx
  | cons c cs ih =>
    intro x hx
    by_cases hc : isSpaceChar c
    · rw [collapseAux_cons_space true c cs hc] at hx
      exact ih x (by simpa using hx)
    · rw [collapseAux_cons_nonspace true c cs (by simpa using hc)] at hx
      simp only [List.head?_cons, Option.some.injEq] at hx
      subst hx
      simpa using hc

theorem collapseAux_chain (l : List Char) :
    ∀ b : Bool, (collapseAux b l).Chain' (fun a b => ¬(a = ' ' ∧ b = ' ')) := by
  induction l with
  | nil => intro b; simp [collapseAux_nil]
  | cons c cs ih =>
    intro b
    by_cases hc : isSpaceChar c
    · rw [collapseAux_cons_space b c cs hc]
      cases b with
      | true => simpa using ih true
      | false =>
        simp only [Bool.false_eq_true, if_false]
        rw [List.chain'_cons']
        refine ⟨fun y hy => ?_, ih true⟩
        intro ⟨_, hy'⟩
        have := collapseAux_true_head cs y hy
        rw [hy'] at this
        simp [isSpaceChar] at this
    · rw [collapseAux_cons_nonspace b c cs (by simpa using hc)]
      rw [List.chain'_cons']
      refine ⟨fun y hy => ?_, ih false⟩
      intro ⟨hc', _⟩
      rw [hc'] at hc
      exact hc (by decide)

theorem collapseAux_fixed (l : List Char)
    (hc : ∀ x ∈ l, isSpaceChar x = false ∨ x = ' ')
    (hch : l.Chain' (fun a b => ¬(a = ' ' ∧ b = ' '))) :
    collapseAux false l = l ∧
      ((∀ x : Char, l.head? = some x → x ≠ ' ') → collapseAux true l = l) := by
  induction l with
  | nil => exact ⟨rfl, fun _ => rfl⟩
  | cons c cs ih =>
    have hcs : ∀ x ∈ cs, isSpaceChar x = false ∨ x = ' ' :=
      fun x hx => hc x (List.mem_cons_of_mem c hx)
    obtain ⟨ihf, iht⟩ := ih hcs hch.tail
    by_cases hsp : isSpaceChar c
    · have hcsp : c = ' ' := by
        rcases hc c (List.mem_cons_self c cs) with h | h
        · rw [h] at hsp; cases hsp
        · exact h
      have hhead : ∀ x : Char, cs.head? = some x → x ≠ ' ' := by
        intro x hx hx'
        have := (List.chain'_cons'.mp hch).1 x hx
        exact this ⟨hcsp, hx'⟩
      constructor
      · rw [collapseAux_cons_space false c cs hsp]
        simp only [Bool.false_eq_true, if_false]
        rw [iht hhead, hcsp]
      · intro hh
        exact absurd rfl (hcsp ▸ hh c (by rw [List.head?_cons]))
    · have hsp' : isSpaceChar c = false := by simpa using hsp
      constructor
      · rw [collapseAux_cons_nonspace false c cs hsp', ihf]
      · intro _
        rw [collapseAux_cons_nonspace true c cs hsp', ihf]

/-! ### Strip lemmas -/

theorem dropWhile_head_false (p : Char → Bool) (l : List Char) :
    ∀ x : Char, (l.dropWhile p).head? = some x → p x = false := by
  induction l with
  | nil => intro x hx; simp at hx
  | cons a l ih =>
    intro x hx
    by_cases ha : p a
    · rw [List.dropWhile_cons_of_pos ha] at hx
      exact ih x hx
    · rw [List.dropWhile_cons_of_neg ha] at hx
      simp only [List.head?_cons, Option.some.injEq] at hx
      subst hx
      simpa using ha

theorem mem_of_mem_dropWhile (p : Char → Bool) (l : List Char) (x : Char)
    (hx : x ∈ l.dropWhile p) : x ∈ l := by
  induction l with
  | nil => simp at hx
  | cons a l ih =>
    by_cases ha : p a
    · rw [List.dropWhile_cons_of_pos ha] at hx
      exact List.mem_cons_of_mem a (ih hx)
    · rwa [List.dropWhile_cons_of_neg ha] at hx

theorem dropWhile_eq_self_of_head (p : Char → Bool) (l : List Char)
    (h : ∀ x : Char, l.head? = some x → p x = false) : l.dropWhile p = l := by
  cases l with
  | nil => rfl
  | cons a l =>
    have : p a = false := h a (by rw [List.head?_cons])
    rw [List.dropWhile_cons_of_neg (by simp [this])]

theorem chain_dropWhile (p : Char → Bool) (R : Char → Char → Prop) (l : List Char)
    (h : l.Chain' R) : (l.dropWhile p).Chain' R := by
  induction l with
  | nil => simp
  | cons a l ih =>
    by_cases ha : p a
    · rw [List.dropWhile_cons_of_pos ha]
      exact ih h.tail
    · rwa [List.dropWhile_cons_of_neg ha]

theorem getLast?_dropWhile (p : Char → Bool) (l : List Char)
    (h : l.dropWhile p ≠ []) : (l.dropWhile p).getLast? = l.getLast? := by
  conv_rhs => rw [← List.takeWhile_append_dropWhile (p := p) (l := l)]
  rw [List.getLast?_append_of_ne_nil _ h]

theorem pyStrip_head (l : List Char) :
    ∀ x : Char, (pyStrip l).head? = some x → isSpaceChar x = false := by
  intro x hx
  rw [pyStrip, List.head?_reverse] at hx
  have hne : (l.dropWhile isSpaceChar).reverse.dropWhile isSpaceChar ≠ [] := by
    intro hnil
    rw [hnil] at hx
    cases hx
  rw [getLast?_dropWhile _ _ hne, List.getLast?_reverse] at hx
  exact dropWhile_head_false isSpaceChar l x hx

theorem pyStrip_getLast (l : List Char) :
    ∀ x : Char, (pyStrip l).getLast? = some x → isSpaceChar x = false := by
  intro x hx
  rw [pyStrip, List.getLast?_reverse] at hx
  exact dropWhile_head_false isSpaceChar _ x hx

theorem mem_of_mem_pyStrip (l : List Char) (x : Char) (hx : x ∈ pyStrip l) : x ∈ l := by
  rw [pyStrip, List.mem_reverse] at hx
  have := mem_of_mem_dropWhile _ _ _ hx
  rw [List.mem_reverse] at this
  exact mem_of_mem_dropWhile _ _ _ this

theorem chain_pyStrip (l : List Char)
    (h : l.Chain' (fun a b => ¬(a = ' ' ∧ b = ' '))) :
    (pyStrip l).Chain' (fun a b => ¬(a = ' ' ∧ b = ' ')) := by
  rw [pyStrip, List.chain'_reverse]
  apply List.Chain'.imp (R := fun a b => ¬(a = ' ' ∧ b = ' '))
  · intro a b hab
    exact fun ⟨h1, h2⟩ => hab ⟨h2, h1⟩
  · apply chain_dropWhile
    rw [List.chain'_reverse]
    apply List.Chain'.imp (R := fun a b => ¬(a = ' ' ∧ b = ' '))
    · intro a b hab
      exact fun ⟨h1, h2⟩ => hab ⟨h2, h1⟩
    · exact chain_dropWhile _ _ _ h

theorem pyStrip_eq_self (l : List Char)
    (hh : ∀ x : Char, l.head? = some x → isSpaceChar x = false)
    (hl : ∀ x : Char, l.getLast? = some x → isSpaceChar x = false) :
    pyStrip l = l := by
  rw [pyStrip, dropWhile_eq_self_of_head _ _ hh]
  rw [dropWhile_eq_self_of_head _ _ (by
    intro x hx
    rw [List.head?_reverse] at hx
    exact hl x hx)]
  exact List.reverse_reverse l

/-! ### Normalizer invariants -/

theorem collapseSpaces_eq (l : List Char) : collapseSpaces l = collapseAux false l := rfl

theorem lowerString_nil : lowerString [] = [] := rfl

theorem lowerString_cons (c : Char) (cs : List Char) :
    lowerString (c :: cs) = lowerCharFull c ++ lowerString cs := by
  simp [lowerString]

theorem mem_lowerString (l : List Char) (c : Char) :
    c ∈ lowerString l ↔ ∃ d ∈ l, c ∈ lowerCharFull d := by
  simp [lowerString]

theorem lowerString_eq_self (l : List Char)
    (h : ∀ c ∈ l, lowerCharFull c = [c]) : lowerString l = l := by
  induction l with
  | nil => rfl
  | cons c cs ih =>
    rw [lowerString_cons, h c (List.mem_cons_self c cs),
      ih (fun x hx => h x (List.mem_cons_of_mem c hx)), List.singleton_append]

theorem preprocess_chars (text : List Char) :
    ∀ x ∈ preprocess_text text,
      (∃ d : Char, isWordChar d = true ∧ x ∈ lowerCharFull d) ∨ x = ' ' := by
  intro x hx
  have hx' := mem_of_mem_pyStrip _ _ hx
  rw [collapseSpaces_eq] at hx'
  rcases mem_collapseAux _ false x hx' with h | ⟨hmem, hns⟩
  · exact Or.inr h
  · rcases (mem_lowerString _ x).mp hmem with ⟨d, hd, hxd⟩
    have hdk : (isWordChar d || isSpaceChar d) = true := (List.mem_filter.mp hd).2
    rcases word_or_space_of_kept d hdk with hw | hs
    · exact Or.inl ⟨d, hw, hxd⟩
    · rw [lowerCharFull_of_space d hs] at hxd
      have hxd' : x = d := by simpa using hxd
      rw [hxd', hs] at hns
      cases hns

theorem preprocess_lower_fixed (text : List Char) :
    ∀ x ∈ preprocess_text text, lowerCharFull x = [x] := by
  intro x hx
  rcases preprocess_chars text x hx with ⟨d, _, hxd⟩ | h
  · exact lowerCharFull_fixed_of_mem d x hxd
  · rw [h]
    decide

theorem preprocess_no_iota (text : List Char) :
    ∀ x ∈ preprocess_text text, x ≠ 'İ' := by
  intro x hx
  rcases preprocess_chars text x hx with ⟨d, _, hxd⟩ | h
  · intro he
    rw [he] at hxd
    exact iota_not_mem_lowerCharFull d hxd
  · rw [h]
    decide

theorem preprocess_chain (text : List Char) :
    (preprocess_text text).Chain' (fun a b => ¬(a = ' ' ∧ b = ' ')) := by
  apply chain_pyStrip
  rw [collapseSpaces_eq]
  exact collapseAux_chain _ false

theorem preprocess_head (text : List Char) :
    ∀ x : Char, (preprocess_text text).head? = some x → isSpaceChar x = false :=
  pyStrip_head _

theorem preprocess_getLast (text : List Char) :
    ∀ x : Char, (preprocess_text text).getLast? = some x → isSpaceChar x = false :=
  pyStrip_getLast _

theorem space_false_of_word (c : Char) (h : isWordChar c = true) : isSpaceChar c = false := by
  by_cases hs : isSpaceChar c
  · rw [not_word_of_space c hs] at h
    cases h
  · simpa using hs

theorem preprocess_chars_strong (l : List Char) (hno : ∀ c ∈ l, c ≠ 'İ') :
    ∀ x ∈ preprocess_text l, isWordChar x = true ∨ x = ' ' := by
  intro x hx
  have hx' := mem_of_mem_pyStrip _ _ hx
  rw [collapseSpaces_eq] at hx'
  rcases mem_collapseAux _ false x hx' with h | ⟨hmem, hns⟩
  · exact Or.inr h
  · rcases (mem_lowerString _ x).mp hmem with ⟨d, hd, hxd⟩
    have hdl : d ∈ l := (List.mem_filter.mp hd).1
    have hdk : (isWordChar d || isSpaceChar d) = true := (List.mem_filter.mp hd).2
    rcases word_or_space_of_kept d hdk with hw | hs
    · exact Or.inl (isWordChar_of_mem_lowerCharFull d x hw (hno d hdl) hxd)
    · rw [lowerCharFull_of_space d hs] at hxd
      have hxd' : x = d := by simpa using hxd
      rw [hxd', hs] at hns
      cases hns

theorem removeNonWord_eq_self (l : List Char)
    (h : ∀ c ∈ l, isWordChar c = true ∨ c = ' ') : removeNonWord l = l := by
  rw [removeNonWord, List.filter_eq_self]
  intro a ha
  rcases h a ha with h' | h'
  · simp [h']
  · rw [h']
    decide

theorem collapseSpaces_eq_self (l : List Char)
    (h1 : ∀ c ∈ l, isWordChar c = true ∨ c = ' ')
    (h2 : l.Chain' (fun a b => ¬(a = ' ' ∧ b = ' '))) : collapseSpaces l = l := by
  rw [collapseSpaces_eq]
  refine (collapseAux_fixed l ?_ h2).1
  intro x hx
  rcases h1 x hx with h | h
  · exact Or.inl (space_false_of_word x h)
  · exact Or.inr h

/-- The normalizer is the identity on any string satisfying the strong
invariant: only word characters and `' '`, no two adjacent spaces,
non-whitespace ends, every character a fixed point of lower-casing. -/
theorem preprocess_fixed (l : List Char)
    (h1 : ∀ c ∈ l, isWordChar c = true ∨ c = ' ')
    (h2 : l.Chain' (fun a b => ¬(a = ' ' ∧ b = ' ')))
    (h3 : ∀ c : Char, l.head? = some c → isSpaceChar c = false)
    (h4 : ∀ c : Char, l.getLast? = some c → isSpaceChar c = false)
    (h5 : ∀ c ∈ l, lowerCharFull c = [c]) :
    preprocess_text l = l := by
  show pyStrip (collapseSpaces (lowerString (removeNonWord l))) = l
  rw [removeNonWord_eq_self l h1, lowerString_eq_self l h5,
    collapseSpaces_eq_self l h1 h2, pyStrip_eq_self l h3 h4]

/-- C5 counterexample: the claimed invariant "contains only word
characters and single-space separators" fails at the input `"İ"`, whose
normalization is `"i" + U+0307`, and `U+0307` (combining dot above) is
neither a word character nor a space. -/
theorem claim_C5_counterexample :
    ¬ (∀ c ∈ preprocess_text "İ".toList, isWordChar c = true ∨ c = ' ') := by
  decide

/-- C5 amended: for every input text, the normalizer's output contains
only single-space separators and characters lying in the lower-case
image of some word character (such an image need not itself be a word
character, e.g. `U+0307` from `'İ'`); it has no two adjacent spaces, no
leading or trailing whitespace, and every character is a fixed point of
lower-casing. -/
theorem claim_C5_normalize_invariant_amended (text : List Char) :
    (∀ c ∈ preprocess_text text,
        (∃ d : Char, isWordChar d = true ∧ c ∈ lowerCharFull d) ∨ c = ' ')
    ∧ (preprocess_text text).Chain' (fun a b => ¬(a = ' ' ∧ b = ' '))
    ∧ (∀ c : Char, (preprocess_text text).head? = some c → isSpaceChar c = false)
    ∧ (∀ c : Char, (preprocess_text text).getLast? = some c → isSpaceChar c = false)
    ∧ (∀ c ∈ preprocess_text text, lowerCharFull c = [c]) :=
  ⟨preprocess_chars text, preprocess_chain text, preprocess_head text,
    preprocess_getLast text, preprocess_lower_fixed text⟩

/-- Witness for C5 at the concrete input `"  Hello,  WORLD!  "`, whose
normalization is `"hello world"` and contains `'h'`. -/
theorem claim_C5_witness :
    (∃ d : Char, isWordChar d = true ∧ 'h' ∈ lowerCharFull d) ∨ 'h' = ' ' :=
  (claim_C5_normalize_invariant_amended "  Hello,  WORLD!  ".toList).1 'h' (by decide)

/-- C8 counterexample: the normalizer is not idempotent: at the input
`"İ"` the first normalization yields `"i" + U+0307`, and the second pass
strips `U+0307` (not a word character), yielding `"i"`. -/
theorem claim_C8_counterexample :
    preprocess_text (preprocess_text "İ".toList) ≠ preprocess_text "İ".toList := by
  decide

/-- C8 amended: the normalizer reaches a fixed point after two
applications: `normalize(normalize(normalize(T))) ==
normalize(normalize(T))` for every text `T` (a single application is not
idempotent in general). -/
theorem claim_C8_normalize_idempotent_amended (text : List Char) :
    preprocess_text (preprocess_text (preprocess_text text)) =
      preprocess_text (preprocess_text text) :=
  preprocess_fixed _
    (preprocess_chars_strong (preprocess_text text) (preprocess_no_iota text))
    (preprocess_chain _)
    (preprocess_head _)
    (preprocess_getLast _)
    (preprocess_lower_fixed _)

/-! ### N-gram frequency characterization -/

theorem beq_eq_decide_eq (a b : Gram) : (a == b) = decide (a = b) := by
  by_cases h : a = b <;> simp [h]

theorem count_ngramList (text : List Char) (n : Nat) (g : Gram) :
    (ngramList text n).count g =
      ((List.range (text.length + 1 - n)).filter
        (fun i => decide ((text.drop i).take n = g))).length := by
  rw [ngramList, List.count_eq_countP, List.countP_map, List.countP_eq_length_filter]
  congr 1
  apply List.filter_congr
  intro i _
  simp only [Function.comp_apply]
  exact beq_eq_decide_eq _ g

/-- C4: for every text and every positive `n` with `n ≤ len(text)`,
`get_ngram_frequency` succeeds and the resulting counter maps each n-gram
`g` to the number of offsets `i ≤ len(text) - n` at which the length-`n`
substring starting at `i` equals `g`, its keys being exactly the
substrings so obtained; and on `"hello world"` with `n = 2` it is exactly
the map `{he:1, el:1, ll:1, lo:1, "o ":1, " w":1, wo:1, or:1, rl:1, ld:1}`. -/
theorem claim_C4_ngram_frequencies :
    (∀ (text : List Char) (n : Nat), 1 ≤ n → n ≤ text.length →
      ∃ f, get_ngram_frequency text n = Except.ok f ∧
        (∀ g : Gram, freqOf f g =
          ((List.range (text.length - n + 1)).filter
            (fun i => decide ((text.drop i).take n = g))).length) ∧
        (∀ g : Gram, g ∈ keysOf f ↔
          ∃ i : Nat, i ≤ text.length - n ∧ (text.drop i).take n = g))
    ∧ get_ngram_frequency "hello world".toList 2 =
        Except.ok [(['h','e'], 1), (['e','l'], 1), (['l','l'], 1), (['l','o'], 1),
          (['o',' '], 1), ([' ','w'], 1), (['w','o'], 1), (['o','r'], 1),
          (['r','l'], 1), (['l','d'], 1)] := by
  constructor
  · intro text n h1 h2
    rw [get_ngram_frequency, if_neg (by omega), if_neg (by omega)]
    refine ⟨_, rfl, ?_, ?_⟩
    · intro g
      rw [freqOf_buildFreq, count_ngramList]
      have he : text.length + 1 - n = text.length - n + 1 := by omega
      rw [he]
    · intro g
      rw [mem_keysOf_buildFreq, ngramList, List.mem_map]
      constructor
      · rintro ⟨i, hi, rfl⟩
        rw [List.mem_range] at hi
        exact ⟨i, by omega, rfl⟩
      · rintro ⟨i, hi, rfl⟩
        exact ⟨i, List.mem_range.mpr (by omega), rfl⟩
  · rfl

/-- Witness for C4 at the concrete input `"ab"` with `n = 2`. -/
theorem claim_C4_witness :
    ∃ f, get_ngram_frequency "ab".toList 2 = Except.ok f ∧
      (∀ g : Gram, freqOf f g =
        ((List.range ("ab".toList.length - 2 + 1)).filter
          (fun i => decide (("ab".toList.drop i).take 2 = g))).length) ∧
      (∀ g : Gram, g ∈ keysOf f ↔
        ∃ i : Nat, i ≤ "ab".toList.length - 2 ∧ ("ab".toList.drop i).take 2 = g) :=
  claim_C4_ngram_frequencies.1 "ab".toList 2 (by decide) (by decide)

/-- C7: `get_ngram_frequency` fails exactly when `n` is not positive
(`text` not being a string, and `n` not being an integer, are excluded by
the types), and on any text shorter than `n` it succeeds with the empty
map. -/
theorem claim_C7_ngram_error_policy (text : List Char) (n : Nat) :
    ((∃ msg : String, get_ngram_frequency text n = Except.error msg) ↔ n = 0)
    ∧ (1 ≤ n → text.length < n → get_ngram_frequency text n = Except.ok []) := by
  constructor
  · constructor
    · rintro ⟨msg, hmsg⟩
      by_contra hn
      rw [get_ngram_frequency, if_neg (by omega)] at hmsg
      by_cases hlen : text.length < n
      · rw [if_pos hlen] at hmsg
        cases hmsg
      · rw [if_neg hlen] at hmsg
        cases hmsg
    · rintro rfl
      exact ⟨_, by rw [get_ngram_frequency, if_pos (by omega)]⟩
  · intro h1 hlen
    rw [get_ngram_frequency, if_neg (by omega), if_pos hlen]

/-- Witness for C7 at the concrete input `"ab"` with `n = 3`. -/
theorem claim_C7_witness : get_ngram_frequency "ab".toList 3 = Except.ok [] :=
  (claim_C7_ngram_error_policy "ab".toList 3).2 (by decide) (by decide)

/-! ### Dot-product and magnitude lemmas -/

theorem nodup_commonGrams (f1 f2 : List (Gram × Nat)) (h1 : (keysOf f1).Nodup) :
    (commonGrams f1 f2).Nodup :=
  h1.filter _

theorem toFinset_commonGrams (f1 f2 : List (Gram × Nat)) :
    (commonGrams f1 f2).toFinset = (keysOf f1).toFinset ∩ (keysOf f2).toFinset := by
  ext g
  simp [commonGrams, List.mem_filter, Finset.mem_inter]

theorem dotProduct_eq_sum_inter (f1 f2 : List (Gram × Nat)) (h1 : (keysOf f1).Nodup) :
    dotProduct f1 f2 =
      ∑ g ∈ (keysOf f1).toFinset ∩ (keysOf f2).toFinset, freqOf f1 g * freqOf f2 g := by
  rw [dotProduct, ← List.sum_toFinset _ (nodup_commonGrams f1 f2 h1), toFinset_commonGrams]

theorem sumSq_eq_sum (f : List (Gram × Nat)) (h : (keysOf f).Nodup) :
    sumSqValues f = ∑ g ∈ (keysOf f).toFinset, freqOf f g * freqOf f g := by
  rw [List.sum_toFinset _ h, keysOf, List.map_map, sumSqValues]
  congr 1
  apply List.map_congr_left
  intro p hp
  have hfv : freqOf f p.1 = p.2 := freqOf_eq_of_mem f h p.1 p.2 (by simpa using hp)
  simp [Function.comp, hfv]

theorem dotProduct_eq_sum_union (f1 f2 : List (Gram × Nat)) (h1 : (keysOf f1).Nodup) :
    dotProduct f1 f2 =
      ∑ g ∈ (keysOf f1).toFinset ∪ (keysOf f2).toFinset, freqOf f1 g * freqOf f2 g := by
  rw [dotProduct_eq_sum_inter f1 f2 h1]
  apply Finset.sum_subset (Finset.inter_subset_union)
  intro g hgu hgi
  rw [Finset.mem_inter] at hgi
  push_neg at hgi
  by_cases hg1 : g ∈ (keysOf f1).toFinset
  · have hg2 : g ∉ keysOf f2 := fun hm => hgi hg1 (List.mem_toFinset.mpr hm)
    rw [freqOf_eq_zero_of_not_mem f2 g hg2, Nat.mul_zero]
  · have hg1' : g ∉ keysOf f1 := fun hm => hg1 (List.mem_toFinset.mpr hm)
    rw [freqOf_eq_zero_of_not_mem f1 g hg1', Nat.zero_mul]

theorem unionDot_eq_sum (f1 f2 : List (Gram × Nat)) :
    unionDot f1 f2 =
      ∑ g ∈ (keysOf f1).toFinset ∪ (keysOf f2).toFinset, freqOf f1 g * freqOf f2 g := by
  rw [unionDot, ← List.sum_toFinset _ (List.nodup_dedup _)]
  congr 1
  ext g
  simp [List.mem_dedup, List.mem_append, Finset.mem_union]

theorem dotProduct_eq_unionDot (f1 f2 : List (Gram × Nat)) (h1 : (keysOf f1).Nodup) :
    dotProduct f1 f2 = unionDot f1 f2 := by
  rw [dotProduct_eq_sum_union f1 f2 h1, unionDot_eq_sum]

theorem dotProduct_comm (f1 f2 : List (Gram × Nat)) (h1 : (keysOf f1).Nodup)
    (h2 : (keysOf f2).Nodup) : dotProduct f1 f2 = dotProduct f2 f1 := by
  rw [dotProduct_eq_sum_inter f1 f2 h1, dotProduct_eq_sum_inter f2 f1 h2,
    Finset.inter_comm]
  exact Finset.sum_congr rfl (fun g _ => Nat.mul_comm _ _)

theorem dotProduct_self (f : List (Gram × Nat)) (h : (keysOf f).Nodup) :
    dotProduct f f = sumSqValues f := by
  rw [dotProduct_eq_sum_inter f f h, Finset.inter_self, sumSq_eq_sum f h]

theorem sumSq_eq_sum_union_left (f1 f2 : List (Gram × Nat)) (h1 : (keysOf f1).Nodup) :
    sumSqValues f1 =
      ∑ g ∈ (keysOf f1).toFinset ∪ (keysOf f2).toFinset, freqOf f1 g * freqOf f1 g := by
  rw [sumSq_eq_sum f1 h1]
  apply Finset.sum_subset (Finset.subset_union_left)
  intro g _ hg1
  have hg1' : g ∉ keysOf f1 := fun hm => hg1 (List.mem_toFinset.mpr hm)
  rw [freqOf_eq_zero_of_not_mem f1 g hg1', Nat.mul_zero]

theorem sumSq_eq_sum_union_right (f1 f2 : List (Gram × Nat)) (h2 : (keysOf f2).Nodup) :
    sumSqValues f2 =
      ∑ g ∈ (keysOf f1).toFinset ∪ (keysOf f2).toFinset, freqOf f2 g * freqOf f2 g := by
  rw [sumSq_eq_sum f2 h2]
  apply Finset.sum_subset (Finset.subset_union_right)
  intro g _ hg2
  have hg2' : g ∉ keysOf f2 := fun hm => hg2 (List.mem_toFinset.mpr hm)
  rw [freqOf_eq_zero_of_not_mem f2 g hg2', Nat.mul_zero]

theorem magnitude_nonneg (f : List (Gram × Nat)) : 0 ≤ magnitude f :=
  Real.sqrt_nonneg _

theorem magnitude_mul_self (f : List (Gram × Nat)) :
    magnitude f * magnitude f = (sumSqValues f : ℝ) :=
  Real.mul_self_sqrt (Nat.cast_nonneg _)

theorem magnitude_pos (f : List (Gram × Nat)) (h : 1 ≤ sumSqValues f) :
    0 < magnitude f :=
  Real.sqrt_pos.mpr (by exact_mod_cast Nat.lt_of_lt_of_le Nat.zero_lt_one h)

theorem magnitude_nil : magnitude ([] : List (Gram × Nat)) = 0 := by
  rw [magnitude]
  norm_num [sumSqValues]

/-- Cauchy-Schwarz: the intersection dot product is bounded by the
product of the two magnitudes (exact real arithmetic). -/
theorem dot_le_mag_mul (f1 f2 : List (Gram × Nat)) (h1 : (keysOf f1).Nodup)
    (h2 : (keysOf f2).Nodup) :
    (dotProduct f1 f2 : ℝ) ≤ magnitude f1 * magnitude f2 := by
  have hCS := Finset.sum_mul_sq_le_sq_mul_sq
    ((keysOf f1).toFinset ∪ (keysOf f2).toFinset)
    (fun g => (freqOf f1 g : ℝ)) (fun g => (freqOf f2 g : ℝ))
  have e1 : (dotProduct f1 f2 : ℝ) =
      ∑ g ∈ (keysOf f1).toFinset ∪ (keysOf f2).toFinset,
        (freqOf f1 g : ℝ) * (freqOf f2 g : ℝ) := by
    rw [dotProduct_eq_sum_union f1 f2 h1]
    push_cast
    rfl
  have e2 : (sumSqValues f1 : ℝ) =
      ∑ g ∈ (keysOf f1).toFinset ∪ (keysOf f2).toFinset, (freqOf f1 g : ℝ) ^ 2 := by
    rw [sumSq_eq_sum_union_left f1 f2 h1]
    push_cast
    exact Finset.sum_congr rfl (fun g _ => (sq ((freqOf f1 g : ℝ))).symm ▸ rfl)
  have e3 : (sumSqValues f2 : ℝ) =
      ∑ g ∈ (keysOf f1).toFinset ∪ (keysOf f2).toFinset, (freqOf f2 g : ℝ) ^ 2 := by
    rw [sumSq_eq_sum_union_right f1 f2 h2]
    push_cast
    exact Finset.sum_congr rfl (fun g _ => (sq ((freqOf f2 g : ℝ))).symm ▸ rfl)
  have hsq : (dotProduct f1 f2 : ℝ) ^ 2 ≤ (sumSqValues f1 : ℝ) * (sumSqValues f2 : ℝ) := by
    rw [e1, e2, e3]
    exact hCS
  have hnn : (0 : ℝ) ≤ (dotProduct f1 f2 : ℝ) := Nat.cast_nonneg _
  calc (dotProduct f1 f2 : ℝ)
      = Real.sqrt ((dotProduct f1 f2 : ℝ) ^ 2) := (Real.sqrt_sq hnn).symm
    _ ≤ Real.sqrt ((sumSqValues f1 : ℝ) * (sumSqValues f2 : ℝ)) := Real.sqrt_le_sqrt hsq
    _ = magnitude f1 * magnitude f2 := by
        rw [magnitude, magnitude, Real.sqrt_mul (Nat.cast_nonneg _)]

/-! ### Scorer computation lemmas -/

theorem ok_keys_nodup (text : List Char) (n : Nat) (f : List (Gram × Nat))
    (h : get_ngram_frequency text n = Except.ok f) : (keysOf f).Nodup := by
  rw [get_ngram_frequency] at h
  by_cases h1 : n < 1
  · rw [if_pos h1] at h
    cases h
  · rw [if_neg h1] at h
    by_cases h2 : text.length < n
    · rw [if_pos h2] at h
      injection h with h
      subst h
      simp [keysOf_nil]
    · rw [if_neg h2] at h
      injection h with h
      subst h
      exact nodup_keysOf_buildFreq _

theorem GF_ok (text : List Char) (n : Nat) (h : 1 ≤ n) :
    get_ngram_frequency text n = Except.ok (buildFreq (ngramList text n)) := by
  rw [get_ngram_frequency, if_neg (by omega)]
  by_cases hl : text.length < n
  · rw [if_pos hl]
    have h0 : text.length + 1 - n = 0 := by omega
    rw [ngramList, h0]
    rfl
  · rw [if_neg hl]

theorem cosine_empty (t1 t2 : List Char) (n : Nat)
    (hp : preprocess_text t1 = [] ∨ preprocess_text t2 = []) :
    calculate_cosine_similarity t1 t2 n = Except.ok 0 := by
  rw [calculate_cosine_similarity, if_pos hp]

theorem cosine_ok_ok (t1 t2 : List Char) (n : Nat)
    (hp : ¬(preprocess_text t1 = [] ∨ preprocess_text t2 = []))
    (f1 f2 : List (Gram × Nat))
    (h1 : get_ngram_frequency (preprocess_text t1) n = Except.ok f1)
    (h2 : get_ngram_frequency (preprocess_text t2) n = Except.ok f2) :
    calculate_cosine_similarity t1 t2 n =
      (if f1 = [] ∨ f2 = [] then Except.ok 0
       else if magnitude f1 * magnitude f2 = 0 then Except.ok 0
       else Except.ok (max 0 (min 1
         ((dotProduct f1 f2 : ℝ) / (magnitude f1 * magnitude f2))))) := by
  rw [calculate_cosine_similarity, if_neg hp, h1, h2]

theorem cosine_err_left (t1 t2 : List Char) (n : Nat)
    (hp : ¬(preprocess_text t1 = [] ∨ preprocess_text t2 = []))
    (msg : String)
    (h1 : get_ngram_frequency (preprocess_text t1) n = Except.error msg) :
    calculate_cosine_similarity t1 t2 n =
      Except.error "cosine similarity computation failed" := by
  rw [calculate_cosine_similarity, if_neg hp, h1]

theorem cosine_err_right (t1 t2 : List Char) (n : Nat)
    (hp : ¬(preprocess_text t1 = [] ∨ preprocess_text t2 = []))
    (f1 : List (Gram × Nat)) (msg : String)
    (h1 : get_ngram_frequency (preprocess_text t1) n = Except.ok f1)
    (h2 : get_ngram_frequency (preprocess_text t2) n = Except.error msg) :
    calculate_cosine_similarity t1 t2 n =
      Except.error "cosine similarity computation failed" := by
  rw [calculate_cosine_similarity, if_neg hp, h1, h2]

/-! ### Claims about the similarity scorer -/

/-- C2: for all texts and every `n`, whenever the scorer returns a value
it lies in the closed interval `[0, 1]` (the computed quotient is clamped
with `max(0.0, min(1.0, ·))` before being returned). -/
theorem claim_C2_range (t1 t2 : List Char) (n : Nat) :
    resultIn01 (calculate_cosine_similarity t1 t2 n) := by
  by_cases hp : preprocess_text t1 = [] ∨ preprocess_text t2 = []
  · rw [cosine_empty t1 t2 n hp]
    exact ⟨le_refl 0, zero_le_one⟩
  · rcases hGF1 : get_ngram_frequency (preprocess_text t1) n with msg1 | f1
    · rw [cosine_err_left t1 t2 n hp msg1 hGF1]
      trivial
    · rcases hGF2 : get_ngram_frequency (preprocess_text t2) n with msg2 | f2
      · rw [cosine_err_right t1 t2 n hp f1 msg2 hGF1 hGF2]
        trivial
      · rw [cosine_ok_ok t1 t2 n hp f1 f2 hGF1 hGF2]
        by_cases hf : f1 = [] ∨ f2 = []
        · rw [if_pos hf]
          exact ⟨le_refl 0, zero_le_one⟩
        · rw [if_neg hf]
          by_cases hm : magnitude f1 * magnitude f2 = 0
          · rw [if_pos hm]
            exact ⟨le_refl 0, zero_le_one⟩
          · rw [if_neg hm]
            exact ⟨le_max_left 0 _, max_le zero_le_one (min_le_left 1 _)⟩

/-- C1: for every text `T` and every positive `n` with
`n ≤ len(normalize(T))`, the self-similarity `cosine_similarity(T, T, n)`
is exactly `1` in exact real arithmetic (hence within any floating-point
tolerance). -/
theorem claim_C1_self_similarity (text : List Char) (n : Nat) (h1 : 1 ≤ n)
    (h2 : n ≤ (preprocess_text text).length) :
    calculate_cosine_similarity text text n = Except.ok 1 := by
  have hpne : ¬(preprocess_text text = [] ∨ preprocess_text text = []) := by
    rintro (h | h) <;>
      (rw [h] at h2; simp only [List.length_nil, Nat.le_zero] at h2; omega)
  have hGF := GF_ok (preprocess_text text) n h1
  have hfne : buildFreq (ngramList (preprocess_text text) n) ≠ [] := by
    have hmem : (preprocess_text text).take n ∈ ngramList (preprocess_text text) n := by
      rw [ngramList]
      exact List.mem_map.mpr ⟨0, List.mem_range.mpr (by omega), by rw [List.drop_zero]⟩
    have hkey := (mem_keysOf_buildFreq _ _).mpr hmem
    intro hnil
    rw [hnil] at hkey
    simp [keysOf_nil] at hkey
  have hnd : (keysOf (buildFreq (ngramList (preprocess_text text) n))).Nodup :=
    nodup_keysOf_buildFreq _
  have hS : 1 ≤ sumSqValues (buildFreq (ngramList (preprocess_text text) n)) :=
    sumSqValues_pos _ (buildFreq_values_pos _) hfne
  have hSne : (sumSqValues (buildFreq (ngramList (preprocess_text text) n)) : ℝ) ≠ 0 := by
    exact_mod_cast (by omega : sumSqValues (buildFreq (ngramList (preprocess_text text) n)) ≠ 0)
  have hmne : magnitude (buildFreq (ngramList (preprocess_text text) n)) *
      magnitude (buildFreq (ngramList (preprocess_text text) n)) ≠ 0 := by
    rw [magnitude_mul_self]
    exact hSne
  rw [cosine_ok_ok text text n hpne _ _ hGF hGF,
    if_neg (by rintro (h | h) <;> exact hfne h), if_neg hmne,
    dotProduct_self _ hnd, magnitude_mul_self, div_self hSne, min_self,
    max_eq_right zero_le_one]

/-- Witness for C1 at the concrete input `"ab"` with `n = 2`. -/
theorem claim_C1_witness :
    calculate_cosine_similarity "ab".toList "ab".toList 2 = Except.ok 1 :=
  claim_C1_self_similarity "ab".toList 2 (by decide) (by decide)

/-- C6: the scorer is exactly symmetric in its two text arguments. -/
theorem claim_C6_symmetry (t1 t2 : List Char) (n : Nat) :
    calculate_cosine_similarity t1 t2 n = calculate_cosine_similarity t2 t1 n := by
  by_cases hp : preprocess_text t1 = [] ∨ preprocess_text t2 = []
  · rw [cosine_empty t1 t2 n hp, cosine_empty t2 t1 n (Or.symm hp)]
  · have hp' : ¬(preprocess_text t2 = [] ∨ preprocess_text t1 = []) :=
      fun h => hp (Or.symm h)
    rcases hGF1 : get_ngram_frequency (preprocess_text t1) n with msg1 | f1
    · rcases hGF2 : get_ngram_frequency (preprocess_text t2) n with msg2 | f2
      · rw [cosine_err_left t1 t2 n hp msg1 hGF1, cosine_err_left t2 t1 n hp' msg2 hGF2]
      · rw [cosine_err_left t1 t2 n hp msg1 hGF1,
          cosine_err_right t2 t1 n hp' f2 msg1 hGF2 hGF1]
    · rcases hGF2 : get_ngram_frequency (preprocess_text t2) n with msg2 | f2
      · rw [cosine_err_right t1 t2 n hp f1 msg2 hGF1 hGF2,
          cosine_err_left t2 t1 n hp' msg2 hGF2]
      · have hnd1 := ok_keys_nodup _ _ _ hGF1
        have hnd2 := ok_keys_nodup _ _ _ hGF2
        rw [cosine_ok_ok t1 t2 n hp f1 f2 hGF1 hGF2,
          cosine_ok_ok t2 t1 n hp' f2 f1 hGF2 hGF1]
        by_cases hf : f1 = [] ∨ f2 = []
        · rw [if_pos hf, if_pos (Or.symm hf)]
        · rw [if_neg hf, if_neg (fun h => hf (Or.symm h)),
            mul_comm (magnitude f2) (magnitude f1), dotProduct_comm f2 f1 hnd2 hnd1]

theorem get_ngrams_eq (text : List Char) (n : Nat) :
    get_ngrams text n = ngramList text n := rfl

theorem ngramList_nil (n : Nat) (h : 1 ≤ n) : ngramList [] n = [] := by
  rw [ngramList]
  have h0 : ([] : List Char).length + 1 - n = 0 := by
    simp only [List.length_nil]
    omega
  rw [h0]
  rfl

/-- C3: the optimized scorer (dot product over the key intersection,
`main.py`) computes exactly the same similarity value as the naive scorer
(dot product over the key union, `mainTEST.py`), for every pair of texts
and every positive `n`: skipping the n-grams present in only one map is
an optimization, not a semantic change. -/
theorem claim_C3_intersection_refines_union (t1 t2 : List Char) (n : Nat)
    (hn : 1 ≤ n) :
    calculate_cosine_similarity t1 t2 n =
      Except.ok (calculate_cosine_similarity_naive t1 t2 n) := by
  have hG1 := GF_ok (preprocess_text t1) n hn
  have hG2 := GF_ok (preprocess_text t2) n hn
  have hnaive : calculate_cosine_similarity_naive t1 t2 n =
      (if magnitude (buildFreq (ngramList (preprocess_text t1) n)) *
          magnitude (buildFreq (ngramList (preprocess_text t2) n)) = 0 then 0
       else (unionDot (buildFreq (ngramList (preprocess_text t1) n))
          (buildFreq (ngramList (preprocess_text t2) n)) : ℝ) /
        (magnitude (buildFreq (ngramList (preprocess_text t1) n)) *
          magnitude (buildFreq (ngramList (preprocess_text t2) n)))) := by
    rw [calculate_cosine_similarity_naive, get_ngrams_eq, get_ngrams_eq]
  by_cases hm : magnitude (buildFreq (ngramList (preprocess_text t1) n)) *
      magnitude (buildFreq (ngramList (preprocess_text t2) n)) = 0
  · have hopt : calculate_cosine_similarity t1 t2 n = Except.ok 0 := by
      by_cases hp : preprocess_text t1 = [] ∨ preprocess_text t2 = []
      · exact cosine_empty t1 t2 n hp
      · rw [cosine_ok_ok t1 t2 n hp _ _ hG1 hG2]
        by_cases hf : buildFreq (ngramList (preprocess_text t1) n) = [] ∨
            buildFreq (ngramList (preprocess_text t2) n) = []
        · rw [if_pos hf]
        · rw [if_neg hf, if_pos hm]
    rw [hopt, hnaive, if_pos hm]
  · have hf1ne : buildFreq (ngramList (preprocess_text t1) n) ≠ [] := by
      intro h
      rw [h, magnitude_nil, zero_mul] at hm
      exact hm rfl
    have hf2ne : buildFreq (ngramList (preprocess_text t2) n) ≠ [] := by
      intro h
      rw [h, magnitude_nil, mul_zero] at hm
      exact hm rfl
    have hp : ¬(preprocess_text t1 = [] ∨ preprocess_text t2 = []) := by
      rintro (h | h)
      · exact hf1ne (by rw [h, ngramList_nil n hn]; rfl)
      · exact hf2ne (by rw [h, ngramList_nil n hn]; rfl)
    have hnd1 := nodup_keysOf_buildFreq (ngramList (preprocess_text t1) n)
    have hnd2 := nodup_keysOf_buildFreq (ngramList (preprocess_text t2) n)
    have hmagpos : 0 < magnitude (buildFreq (ngramList (preprocess_text t1) n)) *
        magnitude (buildFreq (ngramList (preprocess_text t2) n)) :=
      lt_of_le_of_ne (mul_nonneg (magnitude_nonneg _) (magnitude_nonneg _))
        (Ne.symm hm)
    have hq0 : 0 ≤ (dotProduct (buildFreq (ngramList (preprocess_text t1) n))
        (buildFreq (ngramList (preprocess_text t2) n)) : ℝ) /
        (magnitude (buildFreq (ngramList (preprocess_text t1) n)) *
          magnitude (buildFreq (ngramList (preprocess_text t2) n))) :=
      div_nonneg (Nat.cast_nonneg _) (le_of_lt hmagpos)
    have hq1 : (dotProduct (buildFreq (ngramList (preprocess_text t1) n))
        (buildFreq (ngramList (preprocess_text t2) n)) : ℝ) /
        (magnitude (buildFreq (ngramList (preprocess_text t1) n)) *
          magnitude (buildFreq (ngramList (preprocess_text t2) n))) ≤ 1 :=
      (div_le_one hmagpos).mpr (dot_le_mag_mul _ _ hnd1 hnd2)
    rw [cosine_ok_ok t1 t2 n hp _ _ hG1 hG2,
      if_neg (by rintro (h | h); exact hf1ne h; exact hf2ne h), if_neg hm,
      hnaive, if_neg hm, min_eq_right hq1, max_eq_right hq0,
      dotProduct_eq_unionDot _ _ hnd1]

/-- Witness for C3 at the concrete inputs `"ab"`, `"abc"` with `n = 2`. -/
theorem claim_C3_witness :
    calculate_cosine_similarity "ab".toList "abc".toList 2 =
      Except.ok (calculate_cosine_similarity_naive "ab".toList "abc".toList 2) :=
  claim_C3_intersection_refines_union "ab".toList "abc".toList 2 (by decide)

/-- C10: `write_result` rejects every result outside `[0, 1]` with a
`PaperCheckException` (modelled as `Except.error`), regardless of the
path check; the model returns an error before any file effect, so the
output file is neither created nor modified (the file is opened only in
the `Except.ok` outcome, after all validation). -/
theorem claim_C10_write_result_rejects (pathOk : Bool) (r : ℝ)
    (h : r < 0 ∨ 1 < r) :
    ∃ msg : String, write_result pathOk r = Except.error msg := by
  cases pathOk
  · exact ⟨"invalid output path", by rw [write_result, if_pos (by decide)]⟩
  · exact ⟨"result must be between 0 and 1",
      by rw [write_result, if_neg (by decide), if_pos h]⟩

/-- Witness for C10 at the concrete out-of-range result `2`. -/
theorem claim_C10_witness : ∃ msg : String, write_result true 2 = Except.error msg :=
  claim_C10_write_result_rejects true 2 (Or.inr one_lt_two)

end PaperCheck
